import Mathlib

/-!
Verification of `rename_files.py`: a tool that renames `.conf` files by
truncating the filename stem at the first `@` character, resolving name
collisions with a numeric `-i` suffix, with an optional dry-run mode.

Filenames are modelled as `List Char` (Python strings are sequences of
characters); a directory is a list of entries, each an entry name together
with a flag recording whether it is a regular file. The lazy `glob('*.conf')`
enumeration is modelled as a snapshot of the directory taken before any
rename, in directory order.
-/

set_option autoImplicit false

namespace RenameFiles

/-- Filenames are sequences of characters. -/
abbrev FName := List Char

/-- Index of the LAST occurrence of `c` in `cs` (Python `str.rfind`),
or `none` when `c` does not occur. -/
def rfindIdx (c : Char) : List Char → Option Nat
  | [] => none
  | a :: rest =>
    match rfindIdx c rest with
    | some i => some (i + 1)
    | none => if a = c then some 0 else none

/-- Python `pathlib.PurePath.suffix`: the part of the name from the last dot
on, provided that dot is neither the first nor the last character; otherwise
the empty string. -/
def pySuffix (name : FName) : FName :=
  match rfindIdx '.' name with
  | some i => if 0 < i ∧ i < name.length - 1 then name.drop i else []
  | none => []

/-- Python `pathlib.PurePath.stem`: the name with its suffix removed
(the whole name when the suffix is empty). -/
def pyStem (name : FName) : FName :=
  match rfindIdx '.' name with
  | some i => if 0 < i ∧ i < name.length - 1 then name.take i else name
  | none => name

/-- Python `base.split('@', 1)[0]`: the characters strictly before the
first `@`. -/
def beforeAt (base : FName) : FName := base.takeWhile (fun c => c ≠ '@')

/-- `compute_target_name` from the source: given the basename of a `.conf`
file, the new basename (stem truncated at the first `@`, suffix re-appended),
or `none` when the truncation changes nothing. -/
def compute_target_name (name : FName) : Option FName :=
  let base := pyStem name
  let pre := beforeAt base
  if pre = base then none
  else some (pre ++ pySuffix name)

/-- Little-endian decimal digits of `n`, with explicit fuel so that the
definition is structurally recursive; `decDigitsAux n n` computes the
digits of `n`. -/
def decDigitsAux : Nat → Nat → List Nat
  | 0, _ => []
  | Nat.succ fuel, n => if n = 0 then [] else n % 10 :: decDigitsAux fuel (n / 10)

/-- Decimal rendering of a natural number, as Python `str(i)` produces in
the f-string `f"{stem}-{i}{ext}"`. -/
def decRepr (n : Nat) : FName :=
  if n = 0 then ['0'] else ((decDigitsAux n n).map Nat.digitChar).reverse

/-- The `j`-th candidate name tried by `next_available_name`:
`stem ++ ext` first, then `stem-j ++ ext` for `j = 1, 2, ...`. -/
def candName (stem ext : FName) : Nat → FName
  | 0 => stem ++ ext
  | Nat.succ j => stem ++ '-' :: (decRepr (j + 1) ++ ext)

/-- The candidate-probing loop of `next_available_name`: starting at
candidate index `j`, return the first candidate not present among `dir`
(the names existing in the directory). `fuel` bounds the recursion; the
caller supplies fuel that provably suffices (`dir.length + 1` fresh
candidates cannot all be taken). -/
def next_available_from (dir : List FName) (stem ext : FName) : Nat → Nat → FName
  | 0, j => candName stem ext j
  | Nat.succ fuel, j =>
    if candName stem ext j ∈ dir then next_available_from dir stem ext fuel (j + 1)
    else candName stem ext j

/-- `next_available_name` from the source: return a non-colliding filename
like `stem ++ ext`, or `stem-1 ++ ext`, `stem-2 ++ ext`, ... — the first
candidate whose name does not exist in the directory. -/
def next_available_name (dir : List FName) (stem ext : FName) : FName :=
  next_available_from dir stem ext (dir.length + 1) 0

/-- Entry of a directory: a basename together with whether the entry is a
regular file (`Path.is_file()`); non-file entries (subdirectories, special
files) can still match the glob pattern and occupy names. -/
structure Entry where
  name : FName
  isFile : Bool
deriving DecidableEq, Repr

/-- Directory contents: the list of entries, in directory order. -/
abbrev Dir := List Entry

/-- Names present in a directory (what `Path.exists` consults). -/
def Dir.names (d : Dir) : List FName := d.map Entry.name

/-- `Path.is_file()` for the entry called `n` in directory `d`. -/
def isFileIn (d : Dir) (n : FName) : Bool :=
  match d.find? (fun e => e.name = n) with
  | some e => e.isFile
  | none => false

/-- `file.rename(target)`: the entry called `old` keeps its identity but
takes the name `new`. -/
def renameEntry (d : Dir) (old new : FName) : Dir :=
  d.map (fun e => if e.name = old then { name := new, isFile := e.isFile } else e)

/-- Lines 43–47 of the source: the desired basename `tb` is used as is
unless a name `tb` already exists, in which case `next_available_name`
resolves the collision from `tb`'s stem and suffix. -/
def resolveTarget (names : List FName) (tb : FName) : FName :=
  if tb ∈ names then next_available_name names (pyStem tb) (pySuffix tb) else tb

/-- State threaded through the traversal: current directory contents,
lines printed so far, and the two counters. -/
structure RunState where
  dir : Dir
  output : List FName
  renamed : Nat
  skipped : Nat
deriving DecidableEq, Repr

/-- Names matched by `glob('*.conf')` on directory `d`: the names of entries
ending in `.conf` (fnmatch `*` also matches the empty string, and `pathlib`
globbing does not exclude dotfiles), as a snapshot in directory order. -/
def confMatches (d : Dir) : List FName :=
  (d.filter (fun e => decide (".conf".data <:+ e.name))).map Entry.name

/-- The body of the `for file in it:` loop for one candidate name. -/
def processName (dryRun : Bool) (st : RunState) (n : FName) : RunState :=
  if isFileIn st.dir n = false then st
  else
    match compute_target_name n with
    | none => { st with skipped := st.skipped + 1 }
    | some tb =>
      let target := resolveTarget (Dir.names st.dir) tb
      if dryRun then
        { st with
          output := st.output ++ ["[DRY-RUN] ".data ++ n ++ " -> ".data ++ target],
          renamed := st.renamed + 1 }
      else
        { st with
          dir := renameEntry st.dir n target,
          output := st.output ++ ["Renamed: ".data ++ n ++ " -> ".data ++ target],
          renamed := st.renamed + 1 }

/-- `rename_in_directory` from the source (non-recursive traversal): fold
the per-file step over the glob snapshot. -/
def rename_in_directory (d : Dir) (dryRun : Bool) : RunState :=
  (confMatches d).foldl (processName dryRun) { dir := d, output := [], renamed := 0, skipped := 0 }

/-- Observable outcome of `main`: exit status, standard-error lines,
standard-output lines, and the directory contents afterwards. -/
structure MainOut where
  exitCode : Nat
  errLines : List FName
  outLines : List FName
  finalDir : Dir
deriving DecidableEq, Repr

/-- Summary line printed on completion. -/
def summaryLine (dryRun : Bool) (renamed skipped : Nat) : FName :=
  (if dryRun then "Dry-run complete.".data else "Done.".data) ++
    " Renamed: ".data ++ decRepr renamed ++ "; Unchanged: ".data ++ decRepr skipped ++ ".".data

/-- `main` from the source: `pathIsDir` is the result of `root.is_dir()` for
the supplied `path`, and `d` the contents of that directory. -/
def mainRun (pathIsDir : Bool) (path : FName) (d : Dir) (dryRun : Bool) : MainOut :=
  if pathIsDir = false then
    { exitCode := 1,
      errLines := ["Error: '".data ++ path ++ "' is not a directory".data],
      outLines := [], finalDir := d }
  else
    let st := rename_in_directory d dryRun
    { exitCode := 0, errLines := [],
      outLines := st.output ++ [summaryLine dryRun st.renamed st.skipped],
      finalDir := st.dir }

/-- Per-file step extended with the possibility of OS-level rename failure:
`canRen old new` tells whether the filesystem rename succeeds. The source
wraps `file.rename` in no try/except, so a raised error aborts the
traversal before the `print` and before `renamed += 1`; the error value
carries the failing file's name and the run state just before the failing
step. -/
def processNameE (canRen : FName → FName → Bool) (dryRun : Bool) (st : RunState) (n : FName) :
    Except (FName × RunState) RunState :=
  if isFileIn st.dir n = false then .ok st
  else
    match compute_target_name n with
    | none => .ok { st with skipped := st.skipped + 1 }
    | some tb =>
      let target := resolveTarget (Dir.names st.dir) tb
      if dryRun then
        .ok { st with
          output := st.output ++ ["[DRY-RUN] ".data ++ n ++ " -> ".data ++ target],
          renamed := st.renamed + 1 }
      else if canRen n target then
        .ok { st with
          dir := renameEntry st.dir n target,
          output := st.output ++ ["Renamed: ".data ++ n ++ " -> ".data ++ target],
          renamed := st.renamed + 1 }
      else .error (n, st)

/-- Fold of the fallible step over the remaining candidates; an exception
terminates the run at once. -/
def runFoldE (canRen : FName → FName → Bool) (dryRun : Bool) :
    RunState → List FName → Except (FName × RunState) RunState
  | st, [] => .ok st
  | st, n :: rest =>
    match processNameE canRen dryRun st n with
    | .ok st2 => runFoldE canRen dryRun st2 rest
    | .error e => .error e

/-- `rename_in_directory` in the failure-aware model. -/
def rename_in_directoryE (canRen : FName → FName → Bool) (d : Dir) (dryRun : Bool) :
    Except (FName × RunState) RunState :=
  runFoldE canRen dryRun { dir := d, output := [], renamed := 0, skipped := 0 } (confMatches d)

/-- Well-formedness of a directory: entry names are pairwise distinct, as a
filesystem guarantees. -/
abbrev NamesNodup (d : Dir) : Prop := (Dir.names d).Nodup

/-- Number of candidates of `cs` that a run over directory `d` renames:
those naming a regular file whose stem contains an `@`. -/
def countRen (d : Dir) (cs : List FName) : Nat :=
  (cs.filter (fun n => isFileIn d n && (compute_target_name n).isSome)).length

/-- Number of candidates of `cs` that a run over directory `d` skips:
those naming a regular file whose stem contains no `@`. -/
def countSkip (d : Dir) (cs : List FName) : Nat :=
  (cs.filter (fun n => isFileIn d n && (compute_target_name n).isNone)).length

/-- Invariant maintained by the real (non-dry) run while the candidates
`cs` are still pending, relative to the initial directory `d`: names stay
distinct, every pending candidate is still present with its original file
status, and every regular `.conf` file whose stem still contains an `@` is
a pending candidate. -/
def MasterInv (d : Dir) (cs : List FName) (st : RunState) : Prop :=
  NamesNodup st.dir ∧
  (∀ m ∈ cs, m ∈ Dir.names st.dir ∧ isFileIn st.dir m = isFileIn d m) ∧
  (∀ e ∈ st.dir, e.isFile = true → ".conf".data <:+ e.name → '@' ∈ pyStem e.name →
    e.name ∈ cs)

/-! ### Lemmas on the name primitives -/

theorem beforeAt_eq_self_iff {b : FName} : beforeAt b = b ↔ '@' ∉ b := by
  unfold beforeAt
  rw [List.takeWhile_eq_self_iff]
  constructor
  · intro h hm
    have := h '@' hm
    simp at this
  · intro h x hx
    simp only [decide_eq_true_eq]
    intro hxa
    exact h (hxa ▸ hx)

theorem compute_eq_none_iff {n : FName} :
    compute_target_name n = none ↔ '@' ∉ pyStem n := by
  unfold compute_target_name
  by_cases h : beforeAt (pyStem n) = pyStem n
  · simp [h, beforeAt_eq_self_iff.mp h]
  · simp [h]
    by_contra hc
    exact h (beforeAt_eq_self_iff.mpr hc)

theorem compute_eq_some {n : FName} (h : '@' ∈ pyStem n) :
    compute_target_name n = some (beforeAt (pyStem n) ++ pySuffix n) := by
  unfold compute_target_name
  have hne : ¬ beforeAt (pyStem n) = pyStem n := fun hc =>
    (beforeAt_eq_self_iff.mp hc) h
  simp [hne]

theorem beforeAt_no_at {b : FName} : '@' ∉ beforeAt b := by
  intro hm
  have := List.mem_takeWhile_imp hm
  simp at this

theorem rfindIdx_cons (c a : Char) (l : List Char) :
    rfindIdx c (a :: l) =
      match rfindIdx c l with
      | some i => some (i + 1)
      | none => if a = c then some 0 else none := rfl

theorem rfindIdx_append_some {c : Char} {ys : List Char} {i : Nat}
    (h : rfindIdx c ys = some i) :
    ∀ xs : List Char, rfindIdx c (xs ++ ys) = some (xs.length + i) := by
  intro xs
  induction xs with
  | nil => rw [List.nil_append, h, List.length_nil, Nat.zero_add]
  | cons a rest ih =>
    rw [List.cons_append, rfindIdx_cons, ih]
    simp only [List.length_cons, Option.some.injEq]
    omega

theorem rfindIdx_conf : rfindIdx '.' ".conf".data = some 0 := by decide

theorem pyStem_of_rfind_some {s : FName} {i : Nat} (hf : rfindIdx '.' s = some i) :
    pyStem s = if 0 < i ∧ i < s.length - 1 then s.take i else s := by
  unfold pyStem
  rw [hf]

theorem pySuffix_of_rfind_some {s : FName} {i : Nat} (hf : rfindIdx '.' s = some i) :
    pySuffix s = if 0 < i ∧ i < s.length - 1 then s.drop i else [] := by
  unfold pySuffix
  rw [hf]

theorem pyStem_conf {pre : FName} (h : pre ≠ []) :
    pyStem (pre ++ ".conf".data) = pre := by
  have hf : rfindIdx '.' (pre ++ ".conf".data) = some (pre.length + 0) :=
    rfindIdx_append_some rfindIdx_conf pre
  have hlen : (pre ++ ".conf".data).length = pre.length + 5 := by
    simp [List.length_append]
  have hpos : 0 < pre.length := List.length_pos.mpr h
  rw [pyStem_of_rfind_some hf,
    if_pos (show 0 < pre.length + 0 ∧ pre.length + 0 < (pre ++ ".conf".data).length - 1 by omega)]
  have h0 : pre.length + 0 = pre.length := rfl
  rw [h0, List.take_left]

theorem pySuffix_conf {pre : FName} (h : pre ≠ []) :
    pySuffix (pre ++ ".conf".data) = ".conf".data := by
  have hf : rfindIdx '.' (pre ++ ".conf".data) = some (pre.length + 0) :=
    rfindIdx_append_some rfindIdx_conf pre
  have hlen : (pre ++ ".conf".data).length = pre.length + 5 := by
    simp [List.length_append]
  have hpos : 0 < pre.length := List.length_pos.mpr h
  rw [pySuffix_of_rfind_some hf,
    if_pos (show 0 < pre.length + 0 ∧ pre.length + 0 < (pre ++ ".conf".data).length - 1 by omega)]
  have h0 : pre.length + 0 = pre.length := rfl
  rw [h0, List.drop_left]

theorem pyStem_append_pySuffix (s : FName) : pyStem s ++ pySuffix s = s := by
  unfold pyStem pySuffix
  cases h : rfindIdx '.' s with
  | none => simp
  | some i =>
    by_cases hc : 0 < i ∧ i < s.length - 1
    · simp only [hc, if_pos]
      exact List.take_append_drop i s
    · simp [hc]

theorem pyStem_subset (s : FName) : pyStem s ⊆ s := by
  unfold pyStem
  cases rfindIdx '.' s with
  | none => exact fun _ h => h
  | some i =>
    by_cases hc : 0 < i ∧ i < s.length - 1
    · simp only [hc, if_pos]
      exact List.take_subset i s
    · simp only [hc, if_neg, not_false_iff]
      exact fun _ h => h

theorem pySuffix_subset (s : FName) : pySuffix s ⊆ s := by
  unfold pySuffix
  cases rfindIdx '.' s with
  | none => simp
  | some i =>
    by_cases hc : 0 < i ∧ i < s.length - 1
    · simp only [hc, if_pos]
      exact List.drop_subset i s
    · simp [hc]

/-! ### Lemmas on decimal rendering and candidate names -/

theorem digitChar_inj : ∀ d, d < 10 → ∀ e, e < 10 →
    Nat.digitChar d = Nat.digitChar e → d = e := by decide

theorem digitChar_ne_at : ∀ d, d < 10 → Nat.digitChar d ≠ '@' := by decide

theorem digits_map_digitChar_inj :
    ∀ l₁ l₂ : List Nat, (∀ x ∈ l₁, x < 10) → (∀ x ∈ l₂, x < 10) →
      l₁.map Nat.digitChar = l₂.map Nat.digitChar → l₁ = l₂ := by
  intro l₁
  induction l₁ with
  | nil =>
    intro l₂ _ _ h
    cases l₂ with
    | nil => rfl
    | cons b t => simp at h
  | cons a t ih =>
    intro l₂ h₁ h₂ h
    cases l₂ with
    | nil => simp at h
    | cons b t₂ =>
      simp only [List.map_cons, List.cons.injEq] at h
      have ha := h₁ a (List.mem_cons_self a t)
      have hb := h₂ b (List.mem_cons_self b t₂)
      have hab := digitChar_inj a ha b hb h.1
      have ht := ih t₂ (fun x hx => h₁ x (List.mem_cons_of_mem a hx))
        (fun x hx => h₂ x (List.mem_cons_of_mem b hx)) h.2
      rw [hab, ht]

theorem decDigitsAux_eq_digits : ∀ fuel n, n ≤ fuel → decDigitsAux fuel n = Nat.digits 10 n := by
  intro fuel
  induction fuel with
  | zero =>
    intro n hn
    have h0 : n = 0 := by omega
    subst h0
    simp [decDigitsAux]
  | succ fuel ih =>
    intro n hn
    by_cases h0 : n = 0
    · subst h0
      simp [decDigitsAux]
    · have hdiv : n / 10 < n := Nat.div_lt_self (Nat.pos_of_ne_zero h0) (by norm_num)
      rw [show decDigitsAux (fuel + 1) n = n % 10 :: decDigitsAux fuel (n / 10) by
        simp [decDigitsAux, h0]]
      rw [ih (n / 10) (by omega)]
      rw [Nat.digits_def' (by norm_num : (1 : Nat) < 10) (Nat.pos_of_ne_zero h0)]

theorem decRepr_eq (n : Nat) :
    decRepr n = if n = 0 then ['0'] else ((Nat.digits 10 n).map Nat.digitChar).reverse := by
  unfold decRepr
  by_cases h : n = 0
  · simp [h]
  · simp only [h, if_neg, not_false_iff]
    rw [decDigitsAux_eq_digits n n (le_refl n)]

theorem decRepr_ne_nil (n : Nat) : decRepr n ≠ [] := by
  rw [decRepr_eq]
  by_cases h : n = 0
  · simp [h]
  · simp only [h, if_neg, not_false_iff]
    intro hc
    rw [List.reverse_eq_nil_iff, List.map_eq_nil_iff] at hc
    exact (Nat.digits_ne_nil_iff_ne_zero.mpr h) hc

theorem decRepr_inj : Function.Injective decRepr := by
  intro m n h
  rw [decRepr_eq, decRepr_eq] at h
  by_cases hm : m = 0 <;> by_cases hn : n = 0
  · rw [hm, hn]
  · exfalso
    simp only [hm, if_pos, hn, if_neg, not_false_iff] at h
    have h' := congrArg List.reverse h
    simp only [List.reverse_reverse] at h'
    have : Nat.digits 10 n = [0] := by
      apply digits_map_digitChar_inj
      · exact fun x hx => Nat.digits_lt_base (by omega) hx
      · intro x hx; simp at hx; omega
      · rw [← h']; rfl
    have : n = 0 := by
      have := congrArg (Nat.ofDigits 10) this
      rwa [Nat.ofDigits_digits] at this
    exact hn this
  · exfalso
    simp only [hm, if_neg, not_false_iff, hn, if_pos] at h
    have h' := congrArg List.reverse h
    simp only [List.reverse_reverse] at h'
    have : Nat.digits 10 m = [0] := by
      apply digits_map_digitChar_inj
      · exact fun x hx => Nat.digits_lt_base (by omega) hx
      · intro x hx; simp at hx; omega
      · rw [h']; rfl
    have : m = 0 := by
      have := congrArg (Nat.ofDigits 10) this
      rwa [Nat.ofDigits_digits] at this
    exact hm this
  · simp only [hm, if_neg, not_false_iff, hn] at h
    have h' := congrArg List.reverse h
    simp only [List.reverse_reverse] at h'
    have hd := digits_map_digitChar_inj (Nat.digits 10 m) (Nat.digits 10 n)
      (fun x hx => Nat.digits_lt_base (by omega) hx)
      (fun x hx => Nat.digits_lt_base (by omega) hx) h'
    exact Nat.digits_inj_iff.mp hd

theorem decRepr_no_at {n : Nat} {c : Char} (h : c ∈ decRepr n) : c ≠ '@' := by
  rw [decRepr_eq] at h
  by_cases hn : n = 0
  · simp [hn] at h
    rw [h]; decide
  · simp only [hn, if_neg, not_false_iff, List.mem_reverse, List.mem_map] at h
    obtain ⟨d, hd, hdc⟩ := h
    rw [← hdc]
    exact digitChar_ne_at d (Nat.digits_lt_base (by omega) hd)

theorem candName_injective (stem ext : FName) :
    Function.Injective (candName stem ext) := by
  intro i j h
  cases i with
  | zero =>
    cases j with
    | zero => rfl
    | succ j' =>
      exfalso
      have hl := congrArg List.length h
      simp only [candName, List.length_append, List.length_cons] at hl
      have := List.length_pos.mpr (decRepr_ne_nil (j' + 1))
      omega
  | succ i' =>
    cases j with
    | zero =>
      exfalso
      have hl := congrArg List.length h
      simp only [candName, List.length_append, List.length_cons] at hl
      have := List.length_pos.mpr (decRepr_ne_nil (i' + 1))
      omega
    | succ j' =>
      simp only [candName] at h
      have h1 := List.append_cancel_left h
      simp only [List.cons.injEq, true_and] at h1
      have h2 := List.append_cancel_right h1
      have := decRepr_inj h2
      omega

theorem candName_exists_not_mem (dir : List FName) (stem ext : FName) :
    ∃ j, j ≤ dir.length ∧ candName stem ext j ∉ dir := by
  by_contra hc
  push_neg at hc
  have hsub : (List.range (dir.length + 1)).map (candName stem ext) ⊆ dir := by
    intro x hx
    rw [List.mem_map] at hx
    obtain ⟨j, hj, hjx⟩ := hx
    rw [List.mem_range] at hj
    exact hjx ▸ hc j (by omega)
  have hnd : ((List.range (dir.length + 1)).map (candName stem ext)).Nodup :=
    (List.nodup_range (dir.length + 1)).map (candName_injective stem ext)
  have := (hnd.subperm hsub).length_le
  simp at this

theorem next_from_spec (dir : List FName) (stem ext : FName) :
    ∀ fuel j, (∃ k, k ≤ fuel ∧ candName stem ext (j + k) ∉ dir) →
      ∃ k, k ≤ fuel ∧
        next_available_from dir stem ext fuel j = candName stem ext (j + k) ∧
        candName stem ext (j + k) ∉ dir ∧
        ∀ m, m < k → candName stem ext (j + m) ∈ dir := by
  intro fuel
  induction fuel with
  | zero =>
    intro j ⟨k, hk, hfree⟩
    have : k = 0 := by omega
    subst this
    exact ⟨0, le_refl 0, rfl, hfree, fun m hm => absurd hm (by omega)⟩
  | succ fuel ih =>
    intro j ⟨k, hk, hfree⟩
    by_cases hmem : candName stem ext j ∈ dir
    · have hkpos : k ≠ 0 := by
        intro h0
        rw [h0, Nat.add_zero] at hfree
        exact hfree hmem
      have hex : ∃ k', k' ≤ fuel ∧ candName stem ext ((j + 1) + k') ∉ dir := by
        refine ⟨k - 1, by omega, ?_⟩
        have : (j + 1) + (k - 1) = j + k := by omega
        rw [this]
        exact hfree
      obtain ⟨k', hk', heq, hfree', hmin'⟩ := ih (j + 1) hex
      refine ⟨k' + 1, by omega, ?_, ?_, ?_⟩
      · simp only [next_available_from, hmem, if_pos]
        have : j + (k' + 1) = (j + 1) + k' := by omega
        rw [this]
        exact heq
      · have : j + (k' + 1) = (j + 1) + k' := by omega
        rw [this]
        exact hfree'
      · intro m hm
        cases m with
        | zero => simpa using hmem
        | succ m' =>
          have : j + (m' + 1) = (j + 1) + m' := by omega
          rw [this]
          exact hmin' m' (by omega)
    · exact ⟨0, by omega, by simp [next_available_from, hmem], by simpa using hmem,
        fun m hm => absurd hm (by omega)⟩

theorem next_available_spec (dir : List FName) (stem ext : FName) :
    ∃ k, next_available_name dir stem ext = candName stem ext k ∧
      candName stem ext k ∉ dir ∧
      ∀ m, m < k → candName stem ext m ∈ dir := by
  obtain ⟨j, hj, hfree⟩ := candName_exists_not_mem dir stem ext
  have hex : ∃ k, k ≤ dir.length + 1 ∧ candName stem ext (0 + k) ∉ dir :=
    ⟨j, by omega, by simpa using hfree⟩
  obtain ⟨k, _, heq, hfree', hmin⟩ := next_from_spec dir stem ext (dir.length + 1) 0 hex
  exact ⟨k, by simpa using heq, by simpa using hfree', fun m hm => by simpa using hmin m hm⟩

theorem next_available_not_mem (dir : List FName) (stem ext : FName) :
    next_available_name dir stem ext ∉ dir := by
  obtain ⟨k, heq, hfree, _⟩ := next_available_spec dir stem ext
  rw [heq]
  exact hfree

theorem resolveTarget_not_mem (names : List FName) (tb : FName) :
    resolveTarget names tb ∉ names := by
  unfold resolveTarget
  by_cases h : tb ∈ names
  · simp only [h, if_pos]
    exact next_available_not_mem names (pyStem tb) (pySuffix tb)
  · simp only [h, if_neg, not_false_iff]

/-! ### Lemmas on directory entries and renaming -/

theorem renameEntry_cons (e : Entry) (d : Dir) (old new : FName) :
    renameEntry (e :: d) old new =
      (if e.name = old then { name := new, isFile := e.isFile } else e) :: renameEntry d old new := rfl

theorem isFileIn_cons (e : Entry) (d : Dir) (m : FName) :
    isFileIn (e :: d) m = if e.name = m then e.isFile else isFileIn d m := by
  unfold isFileIn
  by_cases h : e.name = m
  · rw [List.find?_cons_of_pos _ (by simp [h]), if_pos h]
  · rw [List.find?_cons_of_neg _ (by simp [h]), if_neg h]

theorem names_renameEntry (d : Dir) (old new : FName) :
    Dir.names (renameEntry d old new) =
      (Dir.names d).map (fun m => if m = old then new else m) := by
  induction d with
  | nil => rfl
  | cons e rest ih =>
    rw [renameEntry_cons]
    show _ :: Dir.names (renameEntry rest old new) = _
    rw [ih]
    by_cases h : e.name = old <;> simp [Dir.names, h]

theorem mem_names_renameEntry {d : Dir} {old new m : FName}
    (hm : m ∈ Dir.names d) (hne : m ≠ old) : m ∈ Dir.names (renameEntry d old new) := by
  rw [names_renameEntry]
  exact List.mem_map.mpr ⟨m, hm, by simp [hne]⟩

theorem nodup_map_rename {l : List FName} {old new : FName}
    (hnd : l.Nodup) (hnew : new ∉ l) :
    (l.map (fun m => if m = old then new else m)).Nodup := by
  induction l with
  | nil => simp
  | cons a t ih =>
    rw [List.nodup_cons] at hnd
    rw [List.mem_cons] at hnew
    push_neg at hnew
    rw [List.map_cons, List.nodup_cons]
    refine ⟨?_, ih hnd.2 hnew.2⟩
    intro hc
    rw [List.mem_map] at hc
    obtain ⟨y, hy, hyc⟩ := hc
    by_cases hya : y = old <;> by_cases haa : a = old
    · have hya' : y = a := by rw [hya, haa]
      exact hnd.1 (hya' ▸ hy)
    · rw [if_pos hya, if_neg haa] at hyc
      exact hnew.1 hyc
    · rw [if_neg hya, if_pos haa] at hyc
      exact hnew.2 (hyc ▸ hy)
    · rw [if_neg hya, if_neg haa] at hyc
      exact hnd.1 (hyc ▸ hy)

theorem nodup_renameEntry {d : Dir} {old new : FName}
    (hnd : NamesNodup d) (hnew : new ∉ Dir.names d) :
    NamesNodup (renameEntry d old new) := by
  unfold NamesNodup
  rw [names_renameEntry]
  exact nodup_map_rename hnd hnew

theorem isFileIn_renameEntry_ne {d : Dir} {old new m : FName}
    (h1 : m ≠ old) (h2 : m ≠ new) :
    isFileIn (renameEntry d old new) m = isFileIn d m := by
  induction d with
  | nil => rfl
  | cons e rest ih =>
    rw [renameEntry_cons]
    by_cases he : e.name = old
    · rw [if_pos he, isFileIn_cons, isFileIn_cons]
      have hm1 : ¬ (({ name := new, isFile := e.isFile } : Entry).name = m) := by
        simp only []
        exact fun hc => h2 (hc ▸ rfl)
      have hm2 : ¬ (e.name = m) := fun hc => h1 ((he ▸ hc) ▸ rfl)
      rw [if_neg hm1, if_neg hm2, ih]
    · rw [if_neg he, isFileIn_cons, isFileIn_cons]
      by_cases hem : e.name = m
      · rw [if_pos hem, if_pos hem]
      · rw [if_neg hem, if_neg hem, ih]

theorem mem_renameEntry {d : Dir} {old new : FName} {x : Entry}
    (hx : x ∈ renameEntry d old new) :
    (x ∈ d ∧ x.name ≠ old) ∨
      ∃ e, e ∈ d ∧ e.name = old ∧ x = { name := new, isFile := e.isFile } ∧ x.name = new := by
  unfold renameEntry at hx
  rw [List.mem_map] at hx
  obtain ⟨e, he, hex⟩ := hx
  by_cases h : e.name = old
  · rw [if_pos h] at hex
    exact Or.inr ⟨e, he, h, hex.symm, by rw [← hex]⟩
  · rw [if_neg h] at hex
    exact Or.inl ⟨hex ▸ he, hex ▸ h⟩

theorem isFileIn_true {d : Dir} {n : FName} (h : isFileIn d n = true) :
    ∃ e, e ∈ d ∧ e.name = n ∧ e.isFile = true := by
  unfold isFileIn at h
  cases hf : d.find? (fun e => e.name = n) with
  | none => rw [hf] at h; cases h
  | some e =>
    rw [hf] at h
    have hp := List.find?_some hf
    simp only [decide_eq_true_eq] at hp
    exact ⟨e, List.mem_of_find?_eq_some hf, hp, h⟩

theorem isFileIn_of_mem_nodup {d : Dir} (hnd : NamesNodup d) {e : Entry} (he : e ∈ d) :
    isFileIn d e.name = e.isFile := by
  induction d with
  | nil => cases he
  | cons a rest ih =>
    unfold NamesNodup Dir.names at hnd
    rw [List.map_cons, List.nodup_cons] at hnd
    rw [isFileIn_cons]
    rcases List.mem_cons.mp he with h | h
    · rw [if_pos (by rw [h])]
      rw [h]
    · have hne : a.name ≠ e.name := by
        intro hc
        exact hnd.1 (hc ▸ List.mem_map.mpr ⟨e, h, rfl⟩)
      rw [if_neg hne]
      exact ih hnd.2 h

/-! ### The renamed-to names contain no `@` -/

theorem candName_no_at {stem ext : FName} (hs : '@' ∉ stem) (he : '@' ∉ ext) (k : Nat) :
    '@' ∉ candName stem ext k := by
  cases k with
  | zero =>
    intro hm
    rcases List.mem_append.mp hm with h | h
    · exact hs h
    · exact he h
  | succ k' =>
    intro hm
    rcases List.mem_append.mp hm with h | h
    · exact hs h
    · rcases List.mem_cons.mp h with h | h
      · cases h
      · rcases List.mem_append.mp h with h | h
        · exact decRepr_no_at h rfl
        · exact he h

theorem resolveTarget_no_at {names : List FName} {tb : FName}
    (htb : '@' ∉ tb) : '@' ∉ resolveTarget names tb := by
  unfold resolveTarget
  by_cases h : tb ∈ names
  · rw [if_pos h]
    obtain ⟨k, heq, _, _⟩ := next_available_spec names (pyStem tb) (pySuffix tb)
    rw [heq]
    exact candName_no_at (fun hc => htb (pyStem_subset tb hc))
      (fun hc => htb (pySuffix_subset tb hc)) k
  · rw [if_neg h]
    exact htb

theorem compute_some_eq {n tb : FName} (hsome : compute_target_name n = some tb) :
    '@' ∈ pyStem n ∧ tb = beforeAt (pyStem n) ++ pySuffix n := by
  have hat : '@' ∈ pyStem n := by
    by_contra hc
    rw [compute_eq_none_iff.mpr hc] at hsome
    cases hsome
  refine ⟨hat, ?_⟩
  rw [compute_eq_some hat] at hsome
  exact (Option.some_inj.mp hsome).symm

theorem conf_decomp {n : FName} (hconf : ".conf".data <:+ n) (hne : n ≠ ".conf".data) :
    ∃ pre, pre ≠ [] ∧ n = pre ++ ".conf".data := by
  obtain ⟨pre, hpre⟩ := hconf
  refine ⟨pre, ?_, hpre.symm⟩
  intro h0
  rw [h0, List.nil_append] at hpre
  exact hne hpre.symm

theorem compute_target_no_at {n tb : FName} (hconf : ".conf".data <:+ n)
    (hsome : compute_target_name n = some tb) : '@' ∉ tb := by
  obtain ⟨hat, htb⟩ := compute_some_eq hsome
  have hne : n ≠ ".conf".data := by
    intro h
    rw [h] at hat
    revert hat
    decide
  obtain ⟨pre, hpre, hn⟩ := conf_decomp hconf hne
  have hsuf : pySuffix n = ".conf".data := by
    rw [hn]
    exact pySuffix_conf hpre
  rw [htb, hsuf]
  intro hm
  rcases List.mem_append.mp hm with h | h
  · exact beforeAt_no_at h
  · revert h
    decide

/-! ### Branch lemmas for the per-file step -/

theorem processName_not_file {dry : Bool} {st : RunState} {n : FName}
    (h : isFileIn st.dir n = false) : processName dry st n = st := by
  simp [processName, h]

theorem processName_skip {dry : Bool} {st : RunState} {n : FName}
    (h : isFileIn st.dir n = true) (hc : compute_target_name n = none) :
    processName dry st n = { st with skipped := st.skipped + 1 } := by
  simp [processName, h, hc]

theorem processName_ren_dry {st : RunState} {n tb : FName}
    (h : isFileIn st.dir n = true) (hc : compute_target_name n = some tb) :
    processName true st n =
      { st with
        output := st.output ++
          ["[DRY-RUN] ".data ++ n ++ " -> ".data ++ resolveTarget (Dir.names st.dir) tb],
        renamed := st.renamed + 1 } := by
  simp [processName, h, hc]

theorem processName_ren_real {st : RunState} {n tb : FName}
    (h : isFileIn st.dir n = true) (hc : compute_target_name n = some tb) :
    processName false st n =
      { st with
        dir := renameEntry st.dir n (resolveTarget (Dir.names st.dir) tb),
        output := st.output ++
          ["Renamed: ".data ++ n ++ " -> ".data ++ resolveTarget (Dir.names st.dir) tb],
        renamed := st.renamed + 1 } := by
  simp [processName, h, hc]

theorem countRen_cons (d : Dir) (n : FName) (cs : List FName) :
    countRen d (n :: cs) =
      (if isFileIn d n && (compute_target_name n).isSome then 1 else 0) + countRen d cs := by
  unfold countRen
  rw [List.filter_cons]
  by_cases h : (isFileIn d n && (compute_target_name n).isSome) = true
  · simp [h]
    omega
  · simp [h]

theorem countSkip_cons (d : Dir) (n : FName) (cs : List FName) :
    countSkip d (n :: cs) =
      (if isFileIn d n && (compute_target_name n).isNone then 1 else 0) + countSkip d cs := by
  unfold countSkip
  rw [List.filter_cons]
  by_cases h : (isFileIn d n && (compute_target_name n).isNone) = true
  · simp [h]
    omega
  · simp [h]

/-! ### The real run: invariant preservation and counters -/

theorem processName_real_step {d : Dir} {cs : List FName} {st : RunState} {n : FName}
    (hinv : MasterInv d (n :: cs) st) (hn : n ∉ cs) (hconf : ".conf".data <:+ n) :
    MasterInv d cs (processName false st n) ∧
    (processName false st n).renamed =
      st.renamed + (if isFileIn d n && (compute_target_name n).isSome then 1 else 0) ∧
    (processName false st n).skipped =
      st.skipped + (if isFileIn d n && (compute_target_name n).isNone then 1 else 0) := by
  obtain ⟨hnd, hmem, hbad⟩ := hinv
  have hfe : isFileIn st.dir n = isFileIn d n := (hmem n (List.mem_cons_self n cs)).2
  by_cases hf : isFileIn st.dir n = true
  · have hfd : isFileIn d n = true := by rw [← hfe]; exact hf
    cases hc : compute_target_name n with
    | none =>
      rw [processName_skip hf hc]
      refine ⟨⟨hnd, fun m hm => hmem m (List.mem_cons_of_mem n hm), ?_⟩, ?_, ?_⟩
      · intro e he hef hec hea
        rcases List.mem_cons.mp (hbad e he hef hec hea) with h | h
        · exfalso
          rw [h] at hea
          exact (compute_eq_none_iff.mp hc) hea
        · exact h
      · rw [hfd]; simp
      · rw [hfd]; simp
    | some tb =>
      rw [processName_ren_real hf hc]
      have htnm : resolveTarget (Dir.names st.dir) tb ∉ Dir.names st.dir :=
        resolveTarget_not_mem _ _
      have htat : '@' ∉ resolveTarget (Dir.names st.dir) tb :=
        resolveTarget_no_at (compute_target_no_at hconf hc)
      refine ⟨⟨?_, ?_, ?_⟩, ?_, ?_⟩
      · exact nodup_renameEntry hnd htnm
      · intro m hm
        have hmm := hmem m (List.mem_cons_of_mem n hm)
        have hmn : m ≠ n := fun hcc => hn (hcc ▸ hm)
        have hmt : m ≠ resolveTarget (Dir.names st.dir) tb :=
          fun hcc => htnm (hcc ▸ hmm.1)
        exact ⟨mem_names_renameEntry hmm.1 hmn,
          by rw [isFileIn_renameEntry_ne hmn hmt, hmm.2]⟩
      · intro e he hef hec hea
        rcases mem_renameEntry he with ⟨hed, hene⟩ | ⟨e0, _, _, _, hename⟩
        · rcases List.mem_cons.mp (hbad e hed hef hec hea) with h | h
          · exact absurd h hene
          · exact h
        · exfalso
          rw [hename] at hea
          exact htat (pyStem_subset _ hea)
      · rw [hfd]; simp
      · rw [hfd]; simp
  · have hf' : isFileIn st.dir n = false := by
      cases hb : isFileIn st.dir n
      · rfl
      · exact absurd hb hf
    have hfd : isFileIn d n = false := by rw [← hfe]; exact hf'
    rw [processName_not_file hf']
    refine ⟨⟨hnd, fun m hm => hmem m (List.mem_cons_of_mem n hm), ?_⟩, ?_, ?_⟩
    · intro e he hef hec hea
      rcases List.mem_cons.mp (hbad e he hef hec hea) with h | h
      · exfalso
        have hent := isFileIn_of_mem_nodup hnd he
        rw [h, hf'] at hent
        rw [← hent] at hef
        cases hef
      · exact h
    · rw [hfd]; simp
    · rw [hfd]; simp

theorem run_fold_real (d : Dir) :
    ∀ (cs : List FName) (st : RunState),
      cs.Nodup → (∀ n ∈ cs, ".conf".data <:+ n) → MasterInv d cs st →
      MasterInv d [] (cs.foldl (processName false) st) ∧
      (cs.foldl (processName false) st).renamed = st.renamed + countRen d cs ∧
      (cs.foldl (processName false) st).skipped = st.skipped + countSkip d cs := by
  intro cs
  induction cs with
  | nil =>
    intro st _ _ hinv
    exact ⟨hinv, by simp [countRen], by simp [countSkip]⟩
  | cons n rest ih =>
    intro st hnd hcs hinv
    rw [List.nodup_cons] at hnd
    have step := processName_real_step hinv hnd.1 (hcs n (List.mem_cons_self n rest))
    rw [List.foldl_cons]
    have hrec := ih (processName false st n) hnd.2
      (fun m hm => hcs m (List.mem_cons_of_mem n hm)) step.1
    refine ⟨hrec.1, ?_, ?_⟩
    · rw [hrec.2.1, step.2.1, countRen_cons]
      omega
    · rw [hrec.2.2, step.2.2, countSkip_cons]
      omega

/-- Initial invariant for processing the glob snapshot of `d`. -/
theorem masterInv_init {d : Dir} (hnd : NamesNodup d) :
    MasterInv d (confMatches d) { dir := d, output := [], renamed := 0, skipped := 0 } := by
  refine ⟨hnd, ?_, ?_⟩
  · intro m hm
    unfold confMatches at hm
    rw [List.mem_map] at hm
    obtain ⟨e, he, hem⟩ := hm
    have hed : e ∈ d := List.mem_of_mem_filter he
    exact ⟨hem ▸ List.mem_map.mpr ⟨e, hed, rfl⟩, rfl⟩
  · intro e he hef hec _
    unfold confMatches
    exact List.mem_map.mpr ⟨e, List.mem_filter.mpr ⟨he, by simpa using hec⟩, rfl⟩

theorem confMatches_nodup {d : Dir} (hnd : NamesNodup d) : (confMatches d).Nodup :=
  ((List.filter_sublist d).map Entry.name).nodup hnd

theorem confMatches_conf {d : Dir} : ∀ n ∈ confMatches d, ".conf".data <:+ n := by
  intro n hn
  unfold confMatches at hn
  rw [List.mem_map] at hn
  obtain ⟨e, he, hen⟩ := hn
  have := List.mem_filter.mp he
  rw [← hen]
  simpa using this.2

/-! ### The dry run: purity and counters -/

theorem processName_dry_step (st : RunState) (n : FName) :
    (processName true st n).dir = st.dir ∧
    (processName true st n).renamed =
      st.renamed + (if isFileIn st.dir n && (compute_target_name n).isSome then 1 else 0) ∧
    (processName true st n).skipped =
      st.skipped + (if isFileIn st.dir n && (compute_target_name n).isNone then 1 else 0) := by
  by_cases hf : isFileIn st.dir n = true
  · cases hc : compute_target_name n with
    | none => rw [processName_skip hf hc]; simp [hf, hc]
    | some tb => rw [processName_ren_dry hf hc]; simp [hf, hc]
  · have hf' : isFileIn st.dir n = false := by
      cases hb : isFileIn st.dir n
      · rfl
      · exact absurd hb hf
    rw [processName_not_file hf']
    simp [hf']

theorem run_fold_dry (d : Dir) :
    ∀ (cs : List FName) (st : RunState), st.dir = d →
      (cs.foldl (processName true) st).dir = d ∧
      (cs.foldl (processName true) st).renamed = st.renamed + countRen d cs ∧
      (cs.foldl (processName true) st).skipped = st.skipped + countSkip d cs := by
  intro cs
  induction cs with
  | nil =>
    intro st h
    exact ⟨h, by simp [countRen], by simp [countSkip]⟩
  | cons n rest ih =>
    intro st h
    have hp := processName_dry_step st n
    rw [List.foldl_cons]
    have hrec := ih (processName true st n) (by rw [hp.1, h])
    refine ⟨hrec.1, ?_, ?_⟩
    · rw [hrec.2.1, hp.2.1, countRen_cons, h]
      omega
    · rw [hrec.2.2, hp.2.2, countSkip_cons, h]
      omega

/-! ### A directory whose `.conf` files have `@`-free stems is a fixed point -/

theorem no_at_run :
    ∀ (cs : List FName) (st : RunState),
      (∀ n ∈ cs, ".conf".data <:+ n) →
      (∀ e ∈ st.dir, e.isFile = true → ".conf".data <:+ e.name → '@' ∉ pyStem e.name) →
      (cs.foldl (processName false) st).renamed = st.renamed ∧
      (cs.foldl (processName false) st).dir = st.dir := by
  intro cs
  induction cs with
  | nil => exact fun st _ _ => ⟨rfl, rfl⟩
  | cons n rest ih =>
    intro st hcs hst
    rw [List.foldl_cons]
    by_cases hf : isFileIn st.dir n = true
    · obtain ⟨e, he, hen, hef⟩ := isFileIn_true hf
      have hnoat : '@' ∉ pyStem n := by
        have := hst e he hef (by rw [hen]; exact hcs n (List.mem_cons_self n rest))
        rw [hen] at this
        exact this
      rw [processName_skip hf (compute_eq_none_iff.mpr hnoat)]
      exact ih { st with skipped := st.skipped + 1 }
        (fun m hm => hcs m (List.mem_cons_of_mem n hm)) hst
    · have hf' : isFileIn st.dir n = false := by
        cases hb : isFileIn st.dir n
        · rfl
        · exact absurd hb hf
      rw [processName_not_file hf']
      exact ih st (fun m hm => hcs m (List.mem_cons_of_mem n hm)) hst

/-! ### Each printed line corresponds to one counted rename -/

theorem run_output_renamed (dry : Bool) :
    ∀ (cs : List FName) (st : RunState), st.output.length = st.renamed →
      (cs.foldl (processName dry) st).output.length = (cs.foldl (processName dry) st).renamed := by
  intro cs
  induction cs with
  | nil => exact fun st h => h
  | cons n rest ih =>
    intro st h
    rw [List.foldl_cons]
    apply ih
    by_cases hf : isFileIn st.dir n = true
    · cases hc : compute_target_name n with
      | none => rw [processName_skip hf hc]; simpa using h
      | some tb =>
        cases dry
        · rw [processName_ren_real hf hc]
          simp [h]
        · rw [processName_ren_dry hf hc]
          simp [h]
    · have hf' : isFileIn st.dir n = false := by
        cases hb : isFileIn st.dir n
        · rfl
        · exact absurd hb hf
      rw [processName_not_file hf']
      exact h

/-! ### The failure-aware model: an uncaught rename error is fatal -/

theorem processNameE_ok_of_dry (canRen : FName → FName → Bool) (st : RunState) (n : FName) :
    ∀ e, processNameE canRen true st n ≠ .error e := by
  intro e h
  unfold processNameE at h
  by_cases hf : isFileIn st.dir n = false
  · rw [if_pos hf] at h
    cases h
  · rw [if_neg hf] at h
    cases hc : compute_target_name n with
    | none => rw [hc] at h; cases h
    | some tb => rw [hc] at h; simp at h

theorem processNameE_error {canRen : FName → FName → Bool} {dry : Bool} {st : RunState}
    {n : FName} {e : FName × RunState}
    (h : processNameE canRen dry st n = .error e) : e = (n, st) ∧ dry = false := by
  cases dry
  · refine ⟨?_, rfl⟩
    unfold processNameE at h
    by_cases hf : isFileIn st.dir n = false
    · rw [if_pos hf] at h
      cases h
    · rw [if_neg hf] at h
      cases hc : compute_target_name n with
      | none => rw [hc] at h; cases h
      | some tb =>
        rw [hc] at h
        simp only [Bool.false_eq_true, if_false] at h
        by_cases hcr : canRen n (resolveTarget (Dir.names st.dir) tb) = true
        · rw [if_pos hcr] at h
          cases h
        · rw [if_neg hcr] at h
          cases h
          rfl
  · exact absurd h (processNameE_ok_of_dry canRen st n e)

theorem runFoldE_error_split {canRen : FName → FName → Bool} {dry : Bool} :
    ∀ (cs : List FName) (st : RunState) (f : FName) (st' : RunState),
      runFoldE canRen dry st cs = .error (f, st') →
      ∃ L1 L2, cs = L1 ++ f :: L2 ∧ runFoldE canRen dry st L1 = .ok st' ∧
        processNameE canRen dry st' f = .error (f, st') ∧ dry = false := by
  intro cs
  induction cs with
  | nil =>
    intro st f st' h
    cases h
  | cons n rest ih =>
    intro st f st' h
    unfold runFoldE at h
    cases hstep : processNameE canRen dry st n with
    | ok st2 =>
      rw [hstep] at h
      obtain ⟨L1, L2, hcs, hok, herr, hdry⟩ := ih st2 f st' h
      refine ⟨n :: L1, L2, by rw [hcs, List.cons_append], ?_, herr, hdry⟩
      unfold runFoldE
      rw [hstep]
      exact hok
    | error e =>
      rw [hstep] at h
      cases h
      obtain ⟨hes, hdry⟩ := processNameE_error hstep
      have hf : f = n := congrArg Prod.fst hes
      have hst : st' = st := congrArg Prod.snd hes
      subst hf
      subst hst
      exact ⟨[], rest, rfl, rfl, hstep, hdry⟩

/-! ### Counting lemmas for the renamed/skipped partition -/

theorem countRen_add_countSkip (d : Dir) (cs : List FName) :
    countRen d cs + countSkip d cs = (cs.filter (fun n => isFileIn d n)).length := by
  induction cs with
  | nil => rfl
  | cons n rest ih =>
    rw [countRen_cons, countSkip_cons, List.filter_cons]
    by_cases hf : isFileIn d n = true
    · cases hc : compute_target_name n with
      | none =>
        simp [hf, hc]
        omega
      | some tb =>
        simp [hf, hc]
        omega
    · have hf' : isFileIn d n = false := by
        cases hb : isFileIn d n
        · rfl
        · exact absurd hb hf
      simp [hf']
      omega

theorem filter_confMatches_length {d : Dir} (hnd : NamesNodup d) :
    ((confMatches d).filter (fun n => isFileIn d n)).length =
      (d.filter (fun e => decide (".conf".data <:+ e.name) && e.isFile)).length := by
  unfold confMatches
  rw [List.filter_map, List.length_map, List.filter_filter]
  congr 1
  apply List.filter_congr
  intro e he
  simp only [Function.comp]
  rw [isFileIn_of_mem_nodup hnd he, Bool.and_comm]

/-! ### The claims -/

/-- C1: for every filename, `compute_target_name` returns `none` (the file
is skipped, no rename) exactly when the stem contains no `@`; otherwise it
returns the part of the stem strictly before the first `@` (everything after
the first `@` discarded) with the original extension appended; and for a
`.conf` file whose stem begins with `@` the result is the extension-only
name `.conf`. -/
theorem claim_C1 (name : FName) :
    (compute_target_name name = none ↔ '@' ∉ pyStem name) ∧
    ('@' ∈ pyStem name →
      compute_target_name name = some (beforeAt (pyStem name) ++ pySuffix name)) ∧
    (".conf".data <:+ name → (∃ t, pyStem name = '@' :: t) →
      compute_target_name name = some ".conf".data) := by
  refine ⟨compute_eq_none_iff, compute_eq_some, ?_⟩
  intro hconf ⟨t, hstem⟩
  have hat : '@' ∈ pyStem name := by
    rw [hstem]
    exact List.mem_cons_self _ _
  have hne : name ≠ ".conf".data := by
    intro h
    rw [h] at hstem
    rw [show pyStem ".conf".data = ".conf".data from by decide] at hstem
    injection hstem with h1 _
    cases h1
  obtain ⟨pre, hpre, hn⟩ := conf_decomp hconf hne
  rw [compute_eq_some hat]
  have hpp : pre = '@' :: t := by
    rw [← pyStem_conf hpre, ← hn, hstem]
  have h1 : beforeAt (pyStem name) = [] := by
    rw [hn, pyStem_conf hpre, hpp]
    rfl
  have h2 : pySuffix name = ".conf".data := by
    rw [hn]
    exact pySuffix_conf hpre
  rw [h1, h2, List.nil_append]

/-- C1 witness: a stem with no `@` is skipped, `mail@example.com.conf`
becomes `mail.conf`, and `@x.conf` becomes the extension-only `.conf`. -/
theorem claim_C1_witness :
    compute_target_name "plain.conf".data = none ∧
    compute_target_name "mail@example.com.conf".data = some "mail.conf".data ∧
    compute_target_name "@x.conf".data = some ".conf".data := by
  refine ⟨?_, ?_, ?_⟩
  · exact (claim_C1 "plain.conf".data).1.mpr (by decide)
  · exact ((claim_C1 "mail@example.com.conf".data).2.1 (by decide)).trans (by decide)
  · exact (claim_C1 "@x.conf".data).2.2 (by decide) ⟨"x".data, by decide⟩

/-- C2: if the desired target name does not exist in the directory it is
used as is; if it exists, the final name is `stem-i.ext` for the lowest
positive `i` such that `stem-i.ext` does not exist; consequently, in a
directory holding exactly `a@x.conf` and `a.conf`, the run renames
`a@x.conf` to `a-1.conf` and leaves `a.conf` unchanged. -/
theorem claim_C2 (names : List FName) (tb : FName) :
    (tb ∉ names → resolveTarget names tb = tb) ∧
    (tb ∈ names → ∃ i, 0 < i ∧
      resolveTarget names tb = pyStem tb ++ '-' :: (decRepr i ++ pySuffix tb) ∧
      pyStem tb ++ '-' :: (decRepr i ++ pySuffix tb) ∉ names ∧
      ∀ j, 0 < j → j < i →
        pyStem tb ++ '-' :: (decRepr j ++ pySuffix tb) ∈ names) ∧
    (rename_in_directory
        [{ name := "a@x.conf".data, isFile := true }, { name := "a.conf".data, isFile := true }]
        false).dir =
      [{ name := "a-1.conf".data, isFile := true },
       { name := "a.conf".data, isFile := true }] ∧
    (rename_in_directory
        [{ name := "a.conf".data, isFile := true }, { name := "a@x.conf".data, isFile := true }]
        false).dir =
      [{ name := "a.conf".data, isFile := true },
       { name := "a-1.conf".data, isFile := true }] := by
  refine ⟨?_, ?_, by decide, by decide⟩
  · intro h
    unfold resolveTarget
    rw [if_neg h]
  · intro h
    unfold resolveTarget
    rw [if_pos h]
    obtain ⟨k, heq, hfree, hmin⟩ := next_available_spec names (pyStem tb) (pySuffix tb)
    have hk0 : k ≠ 0 := by
      intro h0
      rw [h0] at hfree
      apply hfree
      show pyStem tb ++ pySuffix tb ∈ names
      rw [pyStem_append_pySuffix]
      exact h
    obtain ⟨k', rfl⟩ : ∃ k', k = k' + 1 := ⟨k - 1, by omega⟩
    refine ⟨k' + 1, by omega, ?_, ?_, ?_⟩
    · rw [heq]
      rfl
    · exact hfree
    · intro j hj0 hjk
      obtain ⟨j', rfl⟩ : ∃ j', j = j' + 1 := ⟨j - 1, by omega⟩
      exact hmin (j' + 1) hjk

/-- C2 witness: a free name is kept; a taken name `a.conf` resolves to the
lowest free numbered variant. -/
theorem claim_C2_witness :
    resolveTarget ["x.conf".data] "b.conf".data = "b.conf".data ∧
    (∃ i, 0 < i ∧
      resolveTarget ["a.conf".data] "a.conf".data =
        pyStem "a.conf".data ++ '-' :: (decRepr i ++ pySuffix "a.conf".data) ∧
      pyStem "a.conf".data ++ '-' :: (decRepr i ++ pySuffix "a.conf".data) ∉ ["a.conf".data] ∧
      ∀ j, 0 < j → j < i →
        pyStem "a.conf".data ++ '-' :: (decRepr j ++ pySuffix "a.conf".data) ∈
          ["a.conf".data]) :=
  ⟨(claim_C2 ["x.conf".data] "b.conf".data).1 (by decide),
   (claim_C2 ["a.conf".data] "a.conf".data).2.1 (by decide)⟩

/-- C3 counterexample: in a directory holding `@x.conf` and `.conf`, the
file `@x.conf` is renamed to `.conf-1`, whose name does not end in `.conf`;
the collision suffix is appended after the bare `.conf`, so the extension is
not preserved for every renamed file. -/
theorem claim_C3_cex :
    (rename_in_directory
        [{ name := "@x.conf".data, isFile := true }, { name := ".conf".data, isFile := true }]
        false).output = ["Renamed: @x.conf -> .conf-1".data] ∧
    ¬ (".conf".data <:+ ".conf-1".data) := by decide

/-- C3 amended: whenever the computed target basename is not the bare
`.conf` (equivalently, the truncated stem is nonempty), the final
collision-resolved name does end in the original `.conf` extension. -/
theorem claim_C3 (names : List FName) {name tb : FName}
    (hconf : ".conf".data <:+ name)
    (hsome : compute_target_name name = some tb)
    (hne : tb ≠ ".conf".data) :
    ".conf".data <:+ resolveTarget names tb := by
  obtain ⟨hat, htb⟩ := compute_some_eq hsome
  have hnc : name ≠ ".conf".data := by
    intro h
    rw [h] at hat
    revert hat
    decide
  obtain ⟨pre0, hpre0, hn⟩ := conf_decomp hconf hnc
  have hsuf : pySuffix name = ".conf".data := by
    rw [hn]
    exact pySuffix_conf hpre0
  have htb' : tb = beforeAt (pyStem name) ++ ".conf".data := by
    rw [htb, hsuf]
  have hbne : beforeAt (pyStem name) ≠ [] := by
    intro h0
    exact hne (by rw [htb', h0, List.nil_append])
  unfold resolveTarget
  by_cases hmem : tb ∈ names
  · rw [if_pos hmem]
    obtain ⟨k, heq, _, _⟩ := next_available_spec names (pyStem tb) (pySuffix tb)
    rw [heq]
    have hsuf2 : pySuffix tb = ".conf".data := by
      rw [htb']
      exact pySuffix_conf hbne
    cases k with
    | zero =>
      rw [show candName (pyStem tb) (pySuffix tb) 0 = pyStem tb ++ pySuffix tb from rfl,
        hsuf2]
      exact List.suffix_append _ _
    | succ k' =>
      rw [show candName (pyStem tb) (pySuffix tb) (k' + 1) =
          pyStem tb ++ '-' :: (decRepr (k' + 1) ++ pySuffix tb) from rfl, hsuf2]
      rw [show pyStem tb ++ '-' :: (decRepr (k' + 1) ++ ".conf".data) =
          (pyStem tb ++ '-' :: decRepr (k' + 1)) ++ ".conf".data from by simp]
      exact List.suffix_append _ _
  · rw [if_neg hmem, htb']
    exact List.suffix_append _ _

/-- C3 witness: renaming `b@z.conf` while `b.conf` is taken yields a name
still ending in `.conf`. -/
theorem claim_C3_witness :
    ".conf".data <:+ resolveTarget ["b.conf".data] "b.conf".data :=
  claim_C3 ["b.conf".data] (show ".conf".data <:+ "b@z.conf".data by decide)
    (by decide) (by decide)

/-- C4 counterexample: a directory holding only `plain.conf` processes one
file (skipped), yet prints no per-file line, so skipped files do not produce
an output line. -/
theorem claim_C4_cex :
    (rename_in_directory [{ name := "plain.conf".data, isFile := true }] false).skipped = 1 ∧
    (rename_in_directory [{ name := "plain.conf".data, isFile := true }] false).output = [] := by
  decide

/-- C4 amended: the run prints exactly one line per renamed (or planned)
file — the number of output lines equals the renamed counter; skipped files
produce no line. -/
theorem claim_C4 (d : Dir) (dryRun : Bool) :
    (rename_in_directory d dryRun).output.length = (rename_in_directory d dryRun).renamed := by
  unfold rename_in_directory
  exact run_output_renamed dryRun (confMatches d) _ rfl

/-- C5: a dry run mutates nothing — the directory afterwards is the initial
one — and its renamed counter equals the renamed counter of a real run on
the same initial state. -/
theorem claim_C5 (d : Dir) (hnd : NamesNodup d) :
    (rename_in_directory d true).dir = d ∧
    (rename_in_directory d true).renamed = (rename_in_directory d false).renamed := by
  have hdry := run_fold_dry d (confMatches d)
    { dir := d, output := [], renamed := 0, skipped := 0 } rfl
  have hreal := run_fold_real d (confMatches d)
    { dir := d, output := [], renamed := 0, skipped := 0 }
    (confMatches_nodup hnd) confMatches_conf (masterInv_init hnd)
  unfold rename_in_directory
  exact ⟨hdry.1, by rw [hdry.2.1, hreal.2.1]⟩

/-- C5 witness at a two-file directory. -/
theorem claim_C5_witness :
    NamesNodup
      [{ name := "a@x.conf".data, isFile := true }, { name := "a.conf".data, isFile := true }] ∧
    ((rename_in_directory
        [{ name := "a@x.conf".data, isFile := true }, { name := "a.conf".data, isFile := true }]
        true).dir =
      [{ name := "a@x.conf".data, isFile := true }, { name := "a.conf".data, isFile := true }] ∧
    (rename_in_directory
        [{ name := "a@x.conf".data, isFile := true }, { name := "a.conf".data, isFile := true }]
        true).renamed =
      (rename_in_directory
        [{ name := "a@x.conf".data, isFile := true }, { name := "a.conf".data, isFile := true }]
        false).renamed) :=
  ⟨by decide, claim_C5 _ (by decide)⟩

/-- C6: running the tool a second time on the directory produced by a real
run performs zero renames and changes nothing, since every name produced
by the first run has an `@`-free stem. -/
theorem claim_C6 (d : Dir) (hnd : NamesNodup d) :
    (rename_in_directory (rename_in_directory d false).dir false).renamed = 0 ∧
    (rename_in_directory (rename_in_directory d false).dir false).dir =
      (rename_in_directory d false).dir := by
  have hreal := run_fold_real d (confMatches d)
    { dir := d, output := [], renamed := 0, skipped := 0 }
    (confMatches_nodup hnd) confMatches_conf (masterInv_init hnd)
  obtain ⟨⟨_, _, hbad⟩, _, _⟩ := hreal
  have hgood : ∀ e ∈ (rename_in_directory d false).dir, e.isFile = true →
      ".conf".data <:+ e.name → '@' ∉ pyStem e.name := by
    intro e he hef hec hea
    exact absurd (hbad e he hef hec hea) (List.not_mem_nil _)
  have h2 := no_at_run (confMatches (rename_in_directory d false).dir)
    { dir := (rename_in_directory d false).dir, output := [], renamed := 0, skipped := 0 }
    confMatches_conf hgood
  exact ⟨h2.1, h2.2⟩

/-- C6 witness at a two-file directory. -/
theorem claim_C6_witness :
    NamesNodup
      [{ name := "a@x.conf".data, isFile := true }, { name := "a.conf".data, isFile := true }] ∧
    ((rename_in_directory
        (rename_in_directory
          [{ name := "a@x.conf".data, isFile := true },
           { name := "a.conf".data, isFile := true }] false).dir false).renamed = 0 ∧
    (rename_in_directory
        (rename_in_directory
          [{ name := "a@x.conf".data, isFile := true },
           { name := "a.conf".data, isFile := true }] false).dir false).dir =
      (rename_in_directory
          [{ name := "a@x.conf".data, isFile := true },
           { name := "a.conf".data, isFile := true }] false).dir) :=
  ⟨by decide, claim_C6 _ (by decide)⟩

/-- C7: on an invalid root, `main` prints one error line to standard error,
exits with status 1 and touches no file; on a valid directory it exits with
status 0 — whatever the counts — printing the per-file lines followed by the
summary line. -/
theorem claim_C7 (path : FName) (d : Dir) (dryRun : Bool) :
    (mainRun false path d dryRun).exitCode = 1 ∧
    (mainRun false path d dryRun).errLines =
      ["Error: '".data ++ path ++ "' is not a directory".data] ∧
    (mainRun false path d dryRun).finalDir = d ∧
    (mainRun false path d dryRun).outLines = [] ∧
    (mainRun true path d dryRun).exitCode = 0 ∧
    (mainRun true path d dryRun).errLines = [] ∧
    (mainRun true path d dryRun).outLines =
      (rename_in_directory d dryRun).output ++
        [summaryLine dryRun (rename_in_directory d dryRun).renamed
          (rename_in_directory d dryRun).skipped] := by
  unfold mainRun
  simp

/-- C8: when the filesystem rename of some file fails, the run terminates
at once with an error: the state carried out is exactly the state after the
preceding files — the failing file contributed no `Renamed:` line and no
counter increment — and such a failure can only happen outside dry-run
mode. -/
theorem claim_C8 {canRen : FName → FName → Bool} {d : Dir} {dryRun : Bool}
    {f : FName} {st' : RunState}
    (h : rename_in_directoryE canRen d dryRun = .error (f, st')) :
    dryRun = false ∧
    ∃ L1 L2, confMatches d = L1 ++ f :: L2 ∧
      runFoldE canRen dryRun { dir := d, output := [], renamed := 0, skipped := 0 } L1 =
        .ok st' ∧
      processNameE canRen dryRun st' f = .error (f, st') := by
  obtain ⟨L1, L2, hcs, hok, herr, hdry⟩ := runFoldE_error_split (confMatches d) _ f st' h
  exact ⟨hdry, L1, L2, hcs, hok, herr⟩

/-- C8 witness: with an oracle that fails every rename, processing a
single-file directory aborts on that file with the initial state — nothing
printed, nothing counted. -/
theorem claim_C8_witness :
    rename_in_directoryE (fun _ _ => false)
        [{ name := "a@x.conf".data, isFile := true }] false =
      .error ("a@x.conf".data,
        { dir := [{ name := "a@x.conf".data, isFile := true }],
          output := [], renamed := 0, skipped := 0 }) ∧
    (false = false ∧
      ∃ L1 L2,
        confMatches [{ name := "a@x.conf".data, isFile := true }] =
          L1 ++ "a@x.conf".data :: L2 ∧
        runFoldE (fun _ _ => false) false
            { dir := [{ name := "a@x.conf".data, isFile := true }],
              output := [], renamed := 0, skipped := 0 } L1 =
          .ok { dir := [{ name := "a@x.conf".data, isFile := true }],
                output := [], renamed := 0, skipped := 0 } ∧
        processNameE (fun _ _ => false) false
            { dir := [{ name := "a@x.conf".data, isFile := true }],
              output := [], renamed := 0, skipped := 0 } "a@x.conf".data =
          .error ("a@x.conf".data,
            { dir := [{ name := "a@x.conf".data, isFile := true }],
              output := [], renamed := 0, skipped := 0 })) :=
  ⟨rfl, claim_C8 rfl⟩

/-- C9: on a well-formed directory, renamed + skipped equals the number of
glob-matching entries that are regular files; entries matching the pattern
that are not regular files are counted in neither, and the number of output
lines equals the renamed counter alone. -/
theorem claim_C9 (d : Dir) (hnd : NamesNodup d) :
    (rename_in_directory d false).renamed + (rename_in_directory d false).skipped =
      (d.filter (fun e => decide (".conf".data <:+ e.name) && e.isFile)).length ∧
    (rename_in_directory d false).output.length = (rename_in_directory d false).renamed := by
  have hreal := run_fold_real d (confMatches d)
    { dir := d, output := [], renamed := 0, skipped := 0 }
    (confMatches_nodup hnd) confMatches_conf (masterInv_init hnd)
  constructor
  · unfold rename_in_directory
    rw [hreal.2.1, hreal.2.2]
    simp only [Nat.zero_add]
    rw [countRen_add_countSkip]
    exact filter_confMatches_length hnd
  · unfold rename_in_directory
    exact run_output_renamed false (confMatches d) _ rfl

/-- C9 witness: a directory with a non-file entry matching the glob and one
regular file. -/
theorem claim_C9_witness :
    NamesNodup
      [{ name := "x@y.conf".data, isFile := false },
       { name := "a@b.conf".data, isFile := true }] ∧
    ((rename_in_directory
        [{ name := "x@y.conf".data, isFile := false },
         { name := "a@b.conf".data, isFile := true }] false).renamed +
      (rename_in_directory
        [{ name := "x@y.conf".data, isFile := false },
         { name := "a@b.conf".data, isFile := true }] false).skipped =
      (([{ name := "x@y.conf".data, isFile := false },
        { name := "a@b.conf".data, isFile := true }] : Dir).filter
          (fun e => decide (".conf".data <:+ e.name) && e.isFile)).length ∧
    (rename_in_directory
        [{ name := "x@y.conf".data, isFile := false },
         { name := "a@b.conf".data, isFile := true }] false).output.length =
      (rename_in_directory
        [{ name := "x@y.conf".data, isFile := false },
         { name := "a@b.conf".data, isFile := true }] false).renamed) :=
  ⟨by decide, claim_C9 _ (by decide)⟩

/-- C10: dry-run collision resolution consults the unmutated directory: with
`a@x.conf` and `a@y.conf` present and `a.conf` absent, the dry run reports
target `a.conf` for both files (and mutates nothing), while the real run
renames the first to `a.conf` and the second to `a-1.conf`. -/
theorem claim_C10 :
    (rename_in_directory
        [{ name := "a@x.conf".data, isFile := true }, { name := "a@y.conf".data, isFile := true }]
        true).output =
      ["[DRY-RUN] a@x.conf -> a.conf".data, "[DRY-RUN] a@y.conf -> a.conf".data] ∧
    (rename_in_directory
        [{ name := "a@x.conf".data, isFile := true }, { name := "a@y.conf".data, isFile := true }]
        true).dir =
      [{ name := "a@x.conf".data, isFile := true }, { name := "a@y.conf".data, isFile := true }] ∧
    (rename_in_directory
        [{ name := "a@x.conf".data, isFile := true }, { name := "a@y.conf".data, isFile := true }]
        false).output =
      ["Renamed: a@x.conf -> a.conf".data, "Renamed: a@y.conf -> a-1.conf".data] ∧
    (rename_in_directory
        [{ name := "a@x.conf".data, isFile := true }, { name := "a@y.conf".data, isFile := true }]
        false).dir =
      [{ name := "a.conf".data, isFile := true },
       { name := "a-1.conf".data, isFile := true }] := by
  decide

end RenameFiles
